import Mathlib

/-!
Shallow embedding of the Reactify rendering engine (src/src/Reactify.ts).

The engine's data model and operations are translated into pure Lean
definitions:

* `Elem` models `ReactifyElement` (`type` plus `props`; the reserved
  `children` entry of the props object is carried as a separate field,
  the remaining attribute entries as an association list).
* `createElement` / `createTextElement` model the element builder.
* `OldF` / `NewF` model fiber nodes as seen by `reconcileChildren`:
  the old chain (the `alternate.child` sibling list) and the newly
  produced chain.  `reconcileChildren` is translated from the
  index/old-cursor loop of the source into recursion on the two lists.
* `updateDom` is modelled as the list of host mutations it performs.
* `createDomElement` / `visitNode` model host-node materialization
  (`updateHostComponent` versus `updateFunctionComponent`).
* `Fib` / `RendererState` / `commitRoot` / `render` / `scheduleRender`
  model the static renderer state and the commit phase.
* `Hook` / `drainHook` / `mkUpdater` / `useStateModel` model `useState`.
* `AFiber` arenas and `findNextUnitOfWork` model the scheduler's
  next-unit selection over parent/child/sibling pointers.

DOM handles are modelled as natural-number identifiers; JS functions
stored in props (event handlers, updaters) are identified by reference,
modelled as a `Nat` identity.
-/

/-- A JS value stored in props: string, number, boolean, null/undefined,
or a function (identified by reference). -/
inductive Val where
  | vStr (s : String)
  | vNum (n : Int)
  | vBool (b : Bool)
  | vNull
  | vFun (id : Nat)
deriving DecidableEq, Repr

/-- `ReactifyElementType`: a host tag string (which includes the
reserved "TEXT_ELEMENT" tag) or a composite function component
(identified by reference). -/
inductive ETy where
  | tag (s : String)
  | comp (id : Nat)
deriving DecidableEq, Repr

/-- The `type instanceof Function` test of the source. -/
def ETy.isComposite : ETy → Bool
  | .tag _ => false
  | .comp _ => true

/-- `EffectTag` of the source. -/
inductive ETag where
  | UPDATE
  | PLACEMENT
  | DELETION
deriving DecidableEq, Repr

/-- `ReactifyElement`: a type together with props.  The props object's
reserved `children` entry is the `children` field; all other entries of
the props object are the `attrs` association list. -/
inductive Elem where
  | mk (type : ETy) (attrs : List (String × Val)) (children : List Elem)

/-- Element type accessor (`element.type`). -/
def Elem.type : Elem → ETy
  | .mk t _ _ => t

/-- Non-children props accessor. -/
def Elem.attrs : Elem → List (String × Val)
  | .mk _ a _ => a

/-- Children accessor (`element.props.children`). -/
def Elem.children : Elem → List Elem
  | .mk _ _ c => c

/-- A child argument passed to `createElement`: an object element, a
string, a number, a boolean literal, or null/undefined. -/
inductive ChildIn where
  | elem (e : Elem)
  | str (s : String)
  | num (n : Int)
  | bool (b : Bool)
  | nullish

/-- `createTextElement(text)`: builds
`{ type: "TEXT_ELEMENT", props: { value: text, children: [] } }`. -/
def createTextElement (text : String) : Elem :=
  .mk (.tag "TEXT_ELEMENT") [("value", .vStr text)] []

/-- The first filter of `createElement`:
`child !== "false" && child !== "true" && child != null`.
Note that the source compares against the string literals "false" and
"true" (strict inequality), so only string children can fail the first
two tests, while `child != null` (loose) drops null and undefined. -/
def childKeptByFirstFilter : ChildIn → Bool
  | .str s => !(s = "false") && !(s = "true")
  | .nullish => false
  | _ => true

/-- The map step of `createElement`: objects pass through, strings and
numbers become text elements, anything else maps to null (logged as
unsupported) and is removed by the final `filter(child !== null)`. -/
def childMapped : ChildIn → Option Elem
  | .elem e => some e
  | .str s => some (createTextElement s)
  | .num n => some (createTextElement (toString n))
  | _ => none

/-- `createElement(type, props, ...children)`: spreads the props and
replaces `children` with the filtered and normalized child list. -/
def createElement (type : ETy) (props : List (String × Val))
    (children : List ChildIn) : Elem :=
  .mk type props
    ((children.filter childKeptByFirstFilter).filterMap childMapped)

/-! ## Reconciliation (`reconcileChildren`)

`reconcileChildren` walks the declared child array by index in lockstep
with the old fiber chain (`alternate.child` followed by `sibling`
links).  We model the old chain as a list `List OldF` and the produced
child/sibling chain as a list `List NewF` in index order.  In the
source, the per-iteration `newFiber` is `null` exactly when
`index >= children.length` (a declared child always yields an UPDATE or
a PLACEMENT fiber), so the linked chain consists precisely of the
fibers produced for indices below `children.length`, in order, and the
iterations beyond the declared list only tag old fibers for deletion. -/

/-- An old-generation fiber as read by `reconcileChildren`: its type,
its DOM handle, its props (attrs plus children elements) and its effect
tag (mutated to DELETION when the fiber is dropped).  Fields of
`FiberNode` not read here (parent/child/sibling links, hooks) are
modelled where they are used. -/
structure OldF where
  type : ETy
  currentDomElement : Option Nat
  attrs : List (String × Val)
  childrenE : List Elem
  effectTag : ETag

/-- A fiber produced by `reconcileChildren` for one declared child. -/
structure NewF where
  type : ETy
  currentDomElement : Option Nat
  alternate : Option OldF
  effectTag : ETag
  attrs : List (String × Val)
  childrenE : List Elem

/-- The `sameType` branch: a new fiber sharing the old DOM node, with
`alternate = oldFiber`, `effectTag = "UPDATE"`, and the declared
child's props. -/
def updateFiber (child : Elem) (old : OldF) : NewF :=
  { type := old.type
    currentDomElement := old.currentDomElement
    alternate := some old
    effectTag := .UPDATE
    attrs := child.attrs
    childrenE := child.children }

/-- The `child && !sameType` branch: a fresh fiber with no DOM node and
no alternate, `effectTag = "PLACEMENT"`. -/
def placementFiber (child : Elem) : NewF :=
  { type := child.type
    currentDomElement := none
    alternate := none
    effectTag := .PLACEMENT
    attrs := child.attrs
    childrenE := child.children }

/-- The `oldFiber && !sameType` branch mutates
`oldFiber.effectTag = "DELETION"` before pushing it on `deletions`. -/
def deletionTagged (old : OldF) : OldF :=
  { old with effectTag := .DELETION }

/-- `reconcileChildren(children)` translated from the
`while (index < children.length || oldFiber != null)` loop: first
component is the produced child/sibling chain in index order, second
component the fibers pushed onto `deletions` during this call, in push
order. -/
def reconcileChildren : List Elem → List OldF → List NewF × List OldF
  | [], [] => ([], [])
  | c :: cs, [] =>
      let r := reconcileChildren cs []
      (placementFiber c :: r.1, r.2)
  | [], o :: os =>
      let r := reconcileChildren [] os
      (r.1, deletionTagged o :: r.2)
  | c :: cs, o :: os =>
      if c.type = o.type then
        let r := reconcileChildren cs os
        (updateFiber c o :: r.1, r.2)
      else
        let r := reconcileChildren cs os
        (placementFiber c :: r.1, deletionTagged o :: r.2)

/-- The deletions produced by one `reconcileChildren` call, stated
positionally: the old fiber at index `i` is tagged DELETION exactly
when the declared child at `i` is missing or has a different type. -/
def deletionsAt (decl : List Elem) (old : List OldF) : List OldF :=
  (List.range old.length).filterMap fun i =>
    match old[i]?, decl[i]? with
    | some o, some c => if c.type = o.type then none else some (deletionTagged o)
    | some o, none => some (deletionTagged o)
    | none, _ => none

/-! ## Commit-phase prop diffing (`updateDom`) -/

/-- `isEvent`: prop keys starting with "on" are event listeners
(`key.startsWith("on")`, computed on the character list). -/
def isEvent (key : String) : Bool :=
  List.isPrefixOf "on".data key.data

/-- `isProperty`: every key except the reserved `children` key. -/
def isProperty (key : String) : Bool := !(key = "children")

/-- `isNew(prevProps, nextProps)(key)`:
`prevProps[key] !== nextProps[key]` (a missing key reads as
undefined, modelled by `none`). -/
def isNew (prevProps nextProps : List (String × Val)) (key : String) :
    Bool :=
  !(prevProps.lookup key = nextProps.lookup key)

/-- `isGone(nextProps)(key)`: `!(key in nextProps) || isEvent(key)`.
Note the source marks every event-prefixed key of the previous props as
gone, whether or not it is still present in the next props. -/
def isGone (nextProps : List (String × Val)) (key : String) : Bool :=
  (nextProps.lookup key).isNone || isEvent key

/-- `key.toLowerCase().substring(2)`: the listener event type derived
from an event-prefixed prop key (lower-case the key, drop the first
two characters; computed on the character list). -/
def eventTypeOf (key : String) : String :=
  ((key.data.map Char.toLower).drop 2).asString

/-- A host mutation performed by `updateDom`. -/
inductive DomOp where
  | setNodeValue (v : Option Val)
  | removeListener (eventType : String) (handler : Option Val)
  | clearAttr (key : String)
  | addListener (eventType : String) (handler : Option Val)
  | setAttr (key : String) (v : Option Val)
deriving DecidableEq, Repr

/-- The keys processed by the removal pass of `updateDom`:
`Object.keys(prevProps).filter(isProperty).filter(isGone(nextProps))`. -/
def removedKeys (prevProps nextProps : List (String × Val)) :
    List String :=
  ((prevProps.map Prod.fst).filter isProperty).filter (isGone nextProps)

/-- The keys processed by the update pass of `updateDom`:
`Object.keys(nextProps).filter(isProperty).filter(isNew(prevProps, nextProps))`. -/
def updatedKeys (prevProps nextProps : List (String × Val)) :
    List String :=
  ((nextProps.map Prod.fst).filter isProperty).filter
    (isNew prevProps nextProps)

/-- `updateDom(domElement, prevProps, nextProps)` modelled as the list
of host mutations it performs, in order.  `isText` is the
`domElement instanceof Text` test; for a text node only the `value`
prop is compared and the node value overwritten on change.  For a host
element the removal pass runs first (event keys detach a listener, the
others clear the attribute/property), then the update pass (event keys
attach a listener, the others set the attribute/property). -/
def updateDom (isText : Bool) (prevProps nextProps : List (String × Val)) :
    List DomOp :=
  if isText then
    if prevProps.lookup "value" = nextProps.lookup "value" then []
    else [.setNodeValue (nextProps.lookup "value")]
  else
    ((removedKeys prevProps nextProps).map fun key =>
      if isEvent key then
        DomOp.removeListener (eventTypeOf key) (prevProps.lookup key)
      else
        DomOp.clearAttr key)
    ++ ((updatedKeys prevProps nextProps).map fun key =>
      if isEvent key then
        DomOp.addListener (eventTypeOf key) (nextProps.lookup key)
      else
        DomOp.setAttr key (nextProps.lookup key))

/-! ## Host-node materialization -/

/-- `createDomElement(fiberNode)`: returns no node for a composite
(function) type — the source logs and returns undefined — and
otherwise creates one fresh host node (a text node for "TEXT_ELEMENT",
an element for any other tag), modelled by the fresh handle `fresh`. -/
def createDomElement (ty : ETy) (fresh : Nat) : Option Nat :=
  match ty with
  | .comp _ => none
  | .tag _ => some fresh

/-- The effect of one `performUnitOfWork` visit on the fiber's
`currentDomElement`: a composite fiber goes through
`updateFunctionComponent`, which never touches the node; a host fiber
goes through `updateHostComponent`, which materializes the node only
when it is still null.  Returns the node after the visit and the next
fresh handle. -/
def visitNode (ty : ETy) (node : Option Nat) (fresh : Nat) :
    Option Nat × Nat :=
  match ty with
  | .comp _ => (node, fresh)
  | .tag t =>
    match node with
    | some d => (some d, fresh)
    | none => (createDomElement (.tag t) fresh, fresh + 1)

/-- The `case "UPDATE"` guard of `commitWork`: an UPDATE-tagged fiber
whose `alternate` is missing is skipped with a diagnostic. -/
def staleAlternateUpdate (f : NewF) : Bool :=
  match f.effectTag, f.alternate with
  | .UPDATE, none => true
  | _, _ => false

/-! ## Renderer state and the commit phase -/

/-- A `FiberNode` as stored in the renderer's static fields: type, DOM
handle, props (attrs plus declared children), effect tag, and the
alternate/child/sibling links.  (The `parentFiber` back-pointer and the
hook fields are modelled where they are used.) -/
inductive Fib where
  | mk (type : ETy) (currentDomElement : Option Nat)
       (attrs : List (String × Val)) (childrenE : List Elem)
       (effectTag : ETag) (alternate : Option Fib)
       (child : Option Fib) (sibling : Option Fib)

/-- Fiber type accessor. -/
def Fib.type : Fib → ETy
  | .mk t _ _ _ _ _ _ _ => t

/-- Fiber DOM-handle accessor. -/
def Fib.currentDomElement : Fib → Option Nat
  | .mk _ d _ _ _ _ _ _ => d

/-- Fiber attrs accessor. -/
def Fib.attrs : Fib → List (String × Val)
  | .mk _ _ a _ _ _ _ _ => a

/-- Fiber declared-children accessor. -/
def Fib.childrenE : Fib → List Elem
  | .mk _ _ _ c _ _ _ _ => c

/-- Fiber effect-tag accessor. -/
def Fib.effectTag : Fib → ETag
  | .mk _ _ _ _ e _ _ _ => e

/-- Fiber alternate accessor. -/
def Fib.alternate : Fib → Option Fib
  | .mk _ _ _ _ _ a _ _ => a

/-- Fiber child accessor. -/
def Fib.child : Fib → Option Fib
  | .mk _ _ _ _ _ _ c _ => c

/-- Fiber sibling accessor. -/
def Fib.sibling : Fib → Option Fib
  | .mk _ _ _ _ _ _ _ s => s

/-- The renderer's static fields: `workInProgressRoot`,
`nextUnitOfWork`, `currentRoot` and `deletions`. -/
structure RendererState where
  workInProgressRoot : Option Fib
  nextUnitOfWork : Option Fib
  currentRoot : Option Fib
  deletions : List Fib

/-- `commitRoot()`: first the `deletions.forEach` pass applies the
DELETION effects to the host tree (returned here as the list of fibers
processed, in order); then, if a work-in-progress root with a child
exists, `commitWork` walks the tree, `currentRoot` is set to the
work-in-progress root and `workInProgressRoot` is cleared.  The
`deletions` field itself is not written by `commitRoot`. -/
def commitRoot (s : RendererState) : List Fib × RendererState :=
  (s.deletions,
    match s.workInProgressRoot with
    | some wip =>
      match wip.child with
      | some _ =>
        { s with currentRoot := some wip, workInProgressRoot := none }
      | none => s
    | none => s)

/-- `render(reactifyElement, container)`: installs a fresh
work-in-progress root over the container node (alternate = the current
root, `effectTag = "PLACEMENT"`, children = the rendered element) and
points `nextUnitOfWork` at it.  `deletions` is left as it was. -/
def render (reactifyElement : Elem) (containerTag : String)
    (containerNode : Nat) (s : RendererState) : RendererState :=
  let root : Fib := .mk (.tag containerTag) (some containerNode) []
    [reactifyElement] .PLACEMENT s.currentRoot none none
  { s with workInProgressRoot := some root, nextUnitOfWork := some root }

/-- `scheduleRender(fiber)`: rebuilds a work-in-progress root from the
tree root found by `findRoot` (passed here as `rootFiber`), points
`nextUnitOfWork` at it and resets `deletions` to the empty list. -/
def scheduleRender (s : RendererState) (rootFiber : Fib) :
    RendererState :=
  let wip : Fib := .mk rootFiber.type rootFiber.currentDomElement
    rootFiber.attrs rootFiber.childrenE .UPDATE s.currentRoot none none
  { s with workInProgressRoot := some wip, nextUnitOfWork := some wip,
           deletions := [] }

/-! ## `useState` -/

/-- A hook slot: resolved state and the queue of pending updaters. -/
structure Hook (α : Type) where
  state : α
  queue : List (α → α)

/-- The queue drain of `useState`: fold every queued action over the
state in order (`hook.queue.forEach(action => hook.state =
action(hook.state))`), then clear the queue. -/
def drainHook {α : Type} (h : Hook α) : Hook α :=
  ⟨h.queue.foldl (fun s a => a s) h.state, []⟩

/-- An argument passed to the state setter: a function updater or a
plain value. -/
inductive SetStateArg (α : Type) where
  | fn (f : α → α)
  | value (v : α)

/-- `typeof action === "function" ? action : () => action`: a plain
value becomes a constant updater. -/
def mkUpdater {α : Type} : SetStateArg α → (α → α)
  | .fn f => f
  | .value v => fun _ => v

/-- `setState(action)`: append the (wrapped) updater to the hook's
pending queue.  (The accompanying `scheduleRender` call is modelled
separately.) -/
def pushUpdater {α : Type} (h : Hook α) (a : SetStateArg α) : Hook α :=
  { h with queue := h.queue ++ [mkUpdater a] }

/-- The hook-related fields of the active fiber: its (growing) hook
list, the hook index, and the hook list of its alternate, if any. -/
structure HFiber (α : Type) where
  hooks : List (Hook α)
  hookIndex : Nat
  alternateHooks : Option (List (Hook α))

/-- JS array index assignment as used by `fiber.hooks[hookIndex] =
hook` (the source always assigns at the current length, appending). -/
def listAssign {α : Type} (l : List α) (i : Nat) (a : α) : List α :=
  if i = l.length then l ++ [a] else l.set i a

/-- `useState(initialValue)` translated: throws when no fiber is the
active unit of work; otherwise reads the hook slot at `hookIndex` from
the alternate (or creates a fresh slot from `initialValue`), drains the
pending queue in order, stores the drained slot at `hookIndex`,
increments `hookIndex`, and returns the resolved state together with
the updated fiber.  The returned setter is modelled by
`pushUpdater`/`scheduleRender`. -/
def useStateModel {α : Type} (nextUnitOfWork : Option (HFiber α))
    (initialValue : α) : Except String (α × HFiber α) :=
  match nextUnitOfWork with
  | none =>
    .error "useState must be called within a component render."
  | some fiber =>
    let hookIndex := fiber.hookIndex
    let oldHook := fiber.alternateHooks.bind fun hs => hs[hookIndex]?
    let hook := drainHook (oldHook.getD ⟨initialValue, []⟩)
    .ok (hook.state,
      { fiber with
          hooks := listAssign fiber.hooks hookIndex hook
          hookIndex := hookIndex + 1 })

/-! ## Scheduler: next-unit-of-work selection

The fiber graph with its `parentFiber` back-pointers is modelled as an
arena: a list of nodes addressed by index, each holding optional
parent/child/sibling indices.  In an arena built by the renderer a
fiber's parent always appears at a smaller index (parents are created
before their children), so a parent walk from index `i` takes at most
`i + 1` steps; the fuel arguments below are sized accordingly. -/

/-- One fiber's links in the arena. -/
structure AFiber where
  parent : Option Nat
  child : Option Nat
  sibling : Option Nat
deriving DecidableEq, Repr

/-- The `while (ancestor && !ancestor.sibling) ancestor =
ancestor.parentFiber` loop of `findNextUnitOfWork`, with fuel. -/
def findAncestorWithSibling (arena : List AFiber) :
    Nat → Option Nat → Option Nat
  | 0, _ => none
  | _ + 1, none => none
  | fuel + 1, some j =>
    match arena[j]? with
    | none => none
    | some f =>
      if f.sibling.isSome then some j
      else findAncestorWithSibling arena fuel f.parent

/-- The chain of ancestors visited by the parent walk, in walk order,
with fuel. -/
def ancestorChain (arena : List AFiber) : Nat → Option Nat → List Nat
  | 0, _ => []
  | _ + 1, none => []
  | fuel + 1, some j =>
    j :: (match arena[j]? with
          | none => []
          | some f => ancestorChain arena fuel f.parent)

/-- `findNextUnitOfWork()`: prefer the child, else the sibling, else
the sibling of the first ancestor (walking `parentFiber` pointers) that
has one, else none. -/
def findNextUnitOfWork (arena : List AFiber) (i : Nat) : Option Nat :=
  match arena[i]? with
  | none => none
  | some cur =>
    match cur.child with
    | some c => some c
    | none =>
      match cur.sibling with
      | some s => some s
      | none =>
        match findAncestorWithSibling arena (i + 1) cur.parent with
        | some j => (arena[j]?).bind AFiber.sibling
        | none => none

/-- Whether the arena node at index `j` has a sibling (the loop guard
`!ancestor.sibling`, on valid indices). -/
def hasSiblingAt (arena : List AFiber) (j : Nat) : Bool :=
  match arena[j]? with
  | some f => f.sibling.isSome
  | none => false

theorem reconcileChildren_nil_left (old : List OldF) :
    (reconcileChildren [] old).1 = [] := by
  induction old with
  | nil => simp [reconcileChildren]
  | cons o os ih => simp [reconcileChildren, ih]

theorem reconcileChildren_nil_right (decl : List Elem) :
    (reconcileChildren decl []).2 = [] := by
  induction decl with
  | nil => simp [reconcileChildren]
  | cons c cs ih => simp [reconcileChildren, ih]

theorem reconcileChildren_length (decl : List Elem) (old : List OldF) :
    (reconcileChildren decl old).1.length = decl.length := by
  induction decl generalizing old with
  | nil => simp [reconcileChildren_nil_left]
  | cons c cs ih =>
    cases old with
    | nil => simp [reconcileChildren, ih]
    | cons o os =>
      by_cases h : c.type = o.type <;> simp [reconcileChildren, h, ih]

theorem reconcileChildren_chain_at (decl : List Elem) (old : List OldF)
    (i : Nat) :
    (reconcileChildren decl old).1[i]? =
      match decl[i]?, old[i]? with
      | some c, some o =>
          some (if c.type = o.type then updateFiber c o else placementFiber c)
      | some c, none => some (placementFiber c)
      | none, _ => none := by
  induction decl generalizing old i with
  | nil => simp [reconcileChildren_nil_left]
  | cons c cs ih =>
    cases old with
    | nil =>
      cases i with
      | zero => simp [reconcileChildren]
      | succ j => simpa [reconcileChildren] using ih [] j
    | cons o os =>
      by_cases h : c.type = o.type
      · cases i with
        | zero => simp [reconcileChildren, h]
        | succ j => simpa [reconcileChildren, h] using ih os j
      · cases i with
        | zero => simp [reconcileChildren, h]
        | succ j => simpa [reconcileChildren, h] using ih os j

theorem reconcileChildren_deletions (decl : List Elem) (old : List OldF) :
    (reconcileChildren decl old).2 = deletionsAt decl old := by
  induction old generalizing decl with
  | nil =>
    simp [reconcileChildren_nil_right, deletionsAt]
  | cons o os ih =>
    cases decl with
    | nil =>
      simp [reconcileChildren, deletionsAt, List.range_succ_eq_map,
        List.filterMap_cons, List.filterMap_map, ih []]
      refine List.filterMap_congr ?_
      intro i _
      simp [Function.comp, List.getElem?_cons_succ]
    | cons c cs =>
      by_cases h : c.type = o.type <;>
        · simp [reconcileChildren, deletionsAt, h, List.range_succ_eq_map,
            List.filterMap_cons, List.filterMap_map, ih cs]
          refine List.filterMap_congr ?_
          intro i _
          simp [Function.comp, List.getElem?_cons_succ]

/-- Every fiber in a chain produced by `reconcileChildren` comes from
the PLACEMENT branch or from the UPDATE (same type) branch with an old
fiber of the input chain. -/
theorem mem_reconcileChildren_chain {f : NewF} :
    ∀ (decl : List Elem) (old : List OldF),
      f ∈ (reconcileChildren decl old).1 →
      (∃ c, f = placementFiber c)
      ∨ (∃ c o, o ∈ old ∧ c.type = o.type ∧ f = updateFiber c o) := by
  intro decl
  induction decl with
  | nil =>
    intro old hf
    rw [reconcileChildren_nil_left] at hf
    exact absurd hf (List.not_mem_nil f)
  | cons c cs ih =>
    intro old hf
    cases old with
    | nil =>
      simp only [reconcileChildren, List.mem_cons] at hf
      rcases hf with rfl | hf
      · exact .inl ⟨c, rfl⟩
      · rcases ih [] hf with h | ⟨c2, o2, ho, _, _⟩
        · exact .inl h
        · exact absurd ho (List.not_mem_nil o2)
    | cons o os =>
      by_cases h : c.type = o.type
      · simp only [reconcileChildren, h, if_true, List.mem_cons] at hf
        rcases hf with rfl | hf
        · exact .inr ⟨c, o, List.mem_cons_self o os, h, rfl⟩
        · rcases ih os hf with hp | ⟨c2, o2, ho, ht, he⟩
          · exact .inl hp
          · exact .inr ⟨c2, o2, List.mem_cons_of_mem o ho, ht, he⟩
      · simp only [reconcileChildren, h, if_false, List.mem_cons] at hf
        rcases hf with rfl | hf
        · exact .inl ⟨c, rfl⟩
        · rcases ih os hf with hp | ⟨c2, o2, ho, ht, he⟩
          · exact .inl hp
          · exact .inr ⟨c2, o2, List.mem_cons_of_mem o ho, ht, he⟩

/-- C3 counterexample: with previously committed child types
`[a, b, c]` (pairwise distinct host tags) and declared child types
`[a, c]`, the fiber at position 1 is a PLACEMENT with a null host node
(not an UPDATE reusing the old position-1 host node), and two old
fibers (both the old `b` and the old `c`) are tagged DELETION, not
one. -/
theorem reconcileChildren_removeMiddle_cex :
    ((reconcileChildren
        [Elem.mk (.tag "a") [] [], Elem.mk (.tag "c") [] []]
        [OldF.mk (.tag "a") (some 0) [] [] .UPDATE,
         OldF.mk (.tag "b") (some 1) [] [] .UPDATE,
         OldF.mk (.tag "c") (some 2) [] [] .UPDATE]).1[1]?.map
            NewF.effectTag ≠ some ETag.UPDATE)
    ∧ ((reconcileChildren
        [Elem.mk (.tag "a") [] [], Elem.mk (.tag "c") [] []]
        [OldF.mk (.tag "a") (some 0) [] [] .UPDATE,
         OldF.mk (.tag "b") (some 1) [] [] .UPDATE,
         OldF.mk (.tag "c") (some 2) [] [] .UPDATE]).1[1]?.map
            NewF.currentDomElement = some none)
    ∧ (reconcileChildren
        [Elem.mk (.tag "a") [] [], Elem.mk (.tag "c") [] []]
        [OldF.mk (.tag "a") (some 0) [] [] .UPDATE,
         OldF.mk (.tag "b") (some 1) [] [] .UPDATE,
         OldF.mk (.tag "c") (some 2) [] [] .UPDATE]).2.length = 2 := by
  refine ⟨?_, ?_, ?_⟩ <;>
    simp [reconcileChildren, Elem.type, updateFiber, placementFiber,
      deletionTagged]

/-- C3 amended: for old children `[A, B, C]` and declared children
`[A, C]` where the declared `C` and the old `B` have different types,
reconciliation yields position 0 = UPDATE of `A`, position 1 =
PLACEMENT of `C` with null host node and null alternate (the old
position-1 host node is not reused, since the types differ), and both
the old `B` and the old `C` are tagged DELETION, in that order.  (The
host-node reuse at position 1 described by the spec happens only when
the old fiber and the declared element at that position have the same
type, e.g. a list of same-typed items.) -/
theorem reconcileChildren_removeMiddle (oA oB oC : OldF) (eA eC : Elem)
    (hA : eA.type = oA.type) (hBC : eC.type ≠ oB.type) :
    reconcileChildren [eA, eC] [oA, oB, oC] =
      ([updateFiber eA oA, placementFiber eC],
       [deletionTagged oB, deletionTagged oC]) := by
  simp [reconcileChildren, hA, hBC]

/-- Witness for the amended C3 theorem at a concrete input. -/
theorem reconcileChildren_removeMiddle_witness :
    ((Elem.mk (.tag "a") [] []).type
        = (OldF.mk (.tag "a") (some 0) [] [] ETag.UPDATE).type)
    ∧ ((Elem.mk (.tag "c") [] []).type
        ≠ (OldF.mk (.tag "b") (some 1) [] [] ETag.UPDATE).type)
    ∧ reconcileChildren
        [Elem.mk (.tag "a") [] [], Elem.mk (.tag "c") [] []]
        [OldF.mk (.tag "a") (some 0) [] [] .UPDATE,
         OldF.mk (.tag "b") (some 1) [] [] .UPDATE,
         OldF.mk (.tag "c") (some 2) [] [] .UPDATE] =
        ([updateFiber (Elem.mk (.tag "a") [] [])
            (OldF.mk (.tag "a") (some 0) [] [] .UPDATE),
          placementFiber (Elem.mk (.tag "c") [] [])],
         [deletionTagged (OldF.mk (.tag "b") (some 1) [] [] .UPDATE),
          deletionTagged (OldF.mk (.tag "c") (some 2) [] [] .UPDATE)]) :=
  ⟨rfl, by simp [Elem.type],
   reconcileChildren_removeMiddle _ _ _ _ _ rfl (by simp [Elem.type])⟩

/-- C1: reconcileChildren builds the new child chain positionally: the
chain has one fiber per declared child; at each index, same-type pairs
yield an UPDATE fiber that shares the old fiber's host node, links
`alternate = old` and takes the declared props; a declared element with
a differently-typed or missing old fiber yields a PLACEMENT fiber with
null host node and null alternate; an old fiber with a differently-typed
or missing declared element is tagged DELETION and appended to the
deletions list in position order; and positions are consumed while
either list still has entries (every declared index yields a chain
entry and every old index beyond or mismatching the declared list
yields a deletion). -/
theorem reconcileChildren_positional (decl : List Elem) (old : List OldF) :
    (reconcileChildren decl old).1.length = decl.length
    ∧ (∀ i : Nat,
        (reconcileChildren decl old).1[i]? =
          match decl[i]?, old[i]? with
          | some c, some o =>
              some (if c.type = o.type then updateFiber c o
                    else placementFiber c)
          | some c, none => some (placementFiber c)
          | none, _ => none)
    ∧ (reconcileChildren decl old).2 = deletionsAt decl old :=
  ⟨reconcileChildren_length decl old,
   fun i => reconcileChildren_chain_at decl old i,
   reconcileChildren_deletions decl old⟩

/-- C2 counterexample: a commit over a work-in-progress root with a
child promotes the root and clears `workInProgressRoot` but leaves the
`deletions` list as it was, and a later commit processes the same
DELETION entry again. -/
theorem commitRoot_keeps_deletions_cex :
    ((commitRoot
        { workInProgressRoot := some (Fib.mk (.tag "DIV") (some 0) [] []
            .PLACEMENT none
            (some (Fib.mk (.tag "h1") none [] [] .PLACEMENT none none
              none)) none)
          nextUnitOfWork := none
          currentRoot := none
          deletions := [Fib.mk (.tag "p") (some 3) [] [] .DELETION none
            none none] }).2.deletions ≠ [])
    ∧ (commitRoot (commitRoot
        { workInProgressRoot := some (Fib.mk (.tag "DIV") (some 0) [] []
            .PLACEMENT none
            (some (Fib.mk (.tag "h1") none [] [] .PLACEMENT none none
              none)) none)
          nextUnitOfWork := none
          currentRoot := none
          deletions := [Fib.mk (.tag "p") (some 3) [] [] .DELETION none
            none none] }).2).1
      = [Fib.mk (.tag "p") (some 3) [] [] .DELETION none none none] := by
  constructor
  · simp [commitRoot, Fib.child]
  · rfl

/-- C2 amended: when the work loop hands off to the commit phase with a
work-in-progress root that has a child, `commitRoot` processes the
recorded deletions, promotes the work-in-progress root to the current
root and clears `workInProgressRoot`, but does NOT clear the
`deletions` list; `deletions` is reset only when a state-triggered
re-render calls `scheduleRender` (a fresh `render()` call also leaves
it in place), so DELETION entries recorded before one commit are
processed again by a later commit unless a `scheduleRender` intervened. -/
theorem commitRoot_amended (s : RendererState) (wip k : Fib)
    (h1 : s.workInProgressRoot = some wip) (h2 : wip.child = some k) :
    commitRoot s =
      (s.deletions,
       { s with currentRoot := some wip, workInProgressRoot := none })
    ∧ (commitRoot s).2.deletions = s.deletions
    ∧ (∀ el tag node, (render el tag node s).deletions = s.deletions)
    ∧ (∀ rootF, (scheduleRender s rootF).deletions = []) := by
  refine ⟨?_, ?_, fun el tag node => rfl, fun rootF => rfl⟩ <;>
    simp [commitRoot, h1, h2]

/-- Witness for the amended C2 theorem at a concrete state. -/
theorem commitRoot_amended_witness :
    (({ workInProgressRoot := some (Fib.mk (.tag "BODY") (some 0) [] []
          .PLACEMENT none
          (some (Fib.mk (.tag "div") none [] [] .PLACEMENT none none
            none)) none)
        nextUnitOfWork := none
        currentRoot := none
        deletions := [Fib.mk (.tag "span") (some 9) [] [] .DELETION none
          none none] } : RendererState).workInProgressRoot
       = some (Fib.mk (.tag "BODY") (some 0) [] [] .PLACEMENT none
          (some (Fib.mk (.tag "div") none [] [] .PLACEMENT none none
            none)) none))
    ∧ ((Fib.mk (.tag "BODY") (some 0) [] [] .PLACEMENT none
          (some (Fib.mk (.tag "div") none [] [] .PLACEMENT none none
            none)) none).child
       = some (Fib.mk (.tag "div") none [] [] .PLACEMENT none none none))
    ∧ commitRoot
        { workInProgressRoot := some (Fib.mk (.tag "BODY") (some 0) [] []
            .PLACEMENT none
            (some (Fib.mk (.tag "div") none [] [] .PLACEMENT none none
              none)) none)
          nextUnitOfWork := none
          currentRoot := none
          deletions := [Fib.mk (.tag "span") (some 9) [] [] .DELETION
            none none none] }
      = ([Fib.mk (.tag "span") (some 9) [] [] .DELETION none none none],
         { workInProgressRoot := none
           nextUnitOfWork := none
           currentRoot := some (Fib.mk (.tag "BODY") (some 0) [] []
             .PLACEMENT none
             (some (Fib.mk (.tag "div") none [] [] .PLACEMENT none none
               none)) none)
           deletions := [Fib.mk (.tag "span") (some 9) [] [] .DELETION
             none none none] }) := by
  refine ⟨rfl, rfl, ?_⟩
  exact (commitRoot_amended
    { workInProgressRoot := some (Fib.mk (.tag "BODY") (some 0) [] []
        .PLACEMENT none
        (some (Fib.mk (.tag "div") none [] [] .PLACEMENT none none
          none)) none)
      nextUnitOfWork := none
      currentRoot := none
      deletions := [Fib.mk (.tag "span") (some 9) [] [] .DELETION none
        none none] }
    (Fib.mk (.tag "BODY") (some 0) [] [] .PLACEMENT none
      (some (Fib.mk (.tag "div") none [] [] .PLACEMENT none none none))
      none)
    (Fib.mk (.tag "div") none [] [] .PLACEMENT none none none)
    rfl rfl).1

/-- C4 counterexample: with `prevProps = nextProps = { onClick: h }`,
the removal pass still processes the event key (the listener is
detached) even though `keys(prevProps) \ keys(nextProps)` is empty, and
since the handler value is unchanged the update pass does not
re-attach it. -/
theorem updateDom_eventKey_cex :
    updateDom false [("onClick", Val.vFun 0)] [("onClick", Val.vFun 0)]
      = [DomOp.removeListener "click" (some (Val.vFun 0))]
    ∧ (List.lookup "onClick" [("onClick", Val.vFun 0)]).isSome = true :=
  ⟨by decide, rfl⟩

/-- C4 amended: the removal pass of `updateDom` processes exactly the
keys of `prevProps` other than the reserved `children` key that are
either absent from `nextProps` OR event-prefixed — so event listeners
from the previous props are always detached, and re-attached by the
update pass only when the handler value changed; the update pass
processes exactly the non-children keys of `nextProps` whose value
differs from the previous one (event keys as listener attach, others
as attribute/property set); for text nodes the scalar `value` is
overwritten only when it changed. -/
theorem updateDom_amended (prevProps nextProps : List (String × Val)) :
    (∀ k, k ∈ removedKeys prevProps nextProps ↔
        (k ∈ prevProps.map Prod.fst ∧ ¬(k = "children")
         ∧ (nextProps.lookup k = none ∨ isEvent k = true)))
    ∧ (∀ k, k ∈ updatedKeys prevProps nextProps ↔
        (k ∈ nextProps.map Prod.fst ∧ ¬(k = "children")
         ∧ prevProps.lookup k ≠ nextProps.lookup k))
    ∧ updateDom false prevProps nextProps =
        ((removedKeys prevProps nextProps).map fun key =>
          if isEvent key then
            DomOp.removeListener (eventTypeOf key) (prevProps.lookup key)
          else DomOp.clearAttr key)
        ++ ((updatedKeys prevProps nextProps).map fun key =>
          if isEvent key then
            DomOp.addListener (eventTypeOf key) (nextProps.lookup key)
          else DomOp.setAttr key (nextProps.lookup key))
    ∧ (∀ p n : List (String × Val),
        updateDom true p n =
          if p.lookup "value" = n.lookup "value" then []
          else [DomOp.setNodeValue (n.lookup "value")]) := by
  refine ⟨?_, ?_, rfl, fun p n => rfl⟩
  · intro k
    simp [removedKeys, List.mem_filter, isProperty, isGone,
      Option.isNone_iff_eq_none]
    intro x hx
    exact and_comm
  · intro k
    simp [updatedKeys, List.mem_filter, isProperty, isNew]
    intro x hx
    exact and_comm

/-- C5: the code drops the literal string children `"true"` and
`"false"` entirely (the first filter compares every child against the
string literals `"false"`/`"true"`, not against boolean values), while
any other string or number child becomes a text element, boolean and
null children are dropped, and object children are kept in order. -/
theorem createElement_dropsBooleanStrings :
    createElement (.tag "div") [] [ChildIn.str "true"]
      = Elem.mk (.tag "div") [] []
    ∧ createElement (.tag "div") [] [ChildIn.str "false"]
      = Elem.mk (.tag "div") [] []
    ∧ createElement (.tag "div") []
        [ChildIn.str "hello", ChildIn.bool true, ChildIn.bool false,
         ChildIn.nullish, ChildIn.num 3,
         ChildIn.elem (Elem.mk (.tag "p") [] [])]
      = Elem.mk (.tag "div") []
          [createTextElement "hello", createTextElement "3",
           Elem.mk (.tag "p") [] []] :=
  ⟨rfl, rfl, rfl⟩

/-- C6: useState drains the pending queue in order, folding each queued
updater over the state (a plain value acts as a constant updater) and
clearing the queue; draining a concatenated queue equals draining the
two parts one render at a time (sequential-fold law); and in
particular three increment updaters applied across three separate
render cycles and three increment updaters enqueued before a single
render both resolve the state to 3. -/
theorem useState_sequentialFold (α : Type) :
    (∀ (s : α) (q1 q2 : List (α → α)),
        (drainHook ⟨s, q1 ++ q2⟩).state
          = (drainHook ⟨(drainHook ⟨s, q1⟩).state, q2⟩).state)
    ∧ (∀ h : Hook α,
        (drainHook h).state = h.queue.foldl (fun s a => a s) h.state
        ∧ (drainHook h).queue = [])
    ∧ (∀ v s : α, mkUpdater (SetStateArg.value v) s = v)
    ∧ (∀ (h : Hook α) (init : α),
        useStateModel (some ⟨[], 0, some [h]⟩) init
          = .ok ((drainHook h).state, ⟨[drainHook h], 1, some [h]⟩))
    ∧ (drainHook (pushUpdater (drainHook (pushUpdater (drainHook
          (pushUpdater (drainHook (⟨0, []⟩ : Hook Nat))
            (.fn fun n => n + 1)))
            (.fn fun n => n + 1)))
            (.fn fun n => n + 1))).state = 3
    ∧ (drainHook (pushUpdater (pushUpdater (pushUpdater
          (drainHook (⟨0, []⟩ : Hook Nat))
          (.fn fun n => n + 1)) (.fn fun n => n + 1))
          (.fn fun n => n + 1))).state = 3 := by
  refine ⟨?_, fun h => ⟨rfl, rfl⟩, fun v s => rfl, fun h init => rfl,
    rfl, rfl⟩
  intro s q1 q2
  simp [drainHook, List.foldl_append]

/-- C7: useState throws the invalid-hook-call error exactly when no
fiber is the active unit of work (`nextUnitOfWork` is null); with an
active fiber it never throws and returns the resolved state (together
with the updated fiber carrying the stored hook slot; the setter is
modelled by `pushUpdater`). -/
theorem useState_invalidHookCall (α : Type) (init : α) :
    (∃ msg, useStateModel (none : Option (HFiber α)) init = .error msg)
    ∧ (∀ fiber : HFiber α, ∃ st fib2,
        useStateModel (some fiber) init = .ok (st, fib2)) :=
  ⟨⟨_, rfl⟩, fun fiber => ⟨_, _, rfl⟩⟩

/-- C10: every fiber of a chain produced by `reconcileChildren` that
carries effectTag UPDATE has a non-null alternate, so the recoverable
no-op guard of `commitWork` for an UPDATE fiber without an alternate
is never taken on reconciliation output. -/
theorem reconcileChildren_no_staleAlternateUpdate
    (decl : List Elem) (old : List OldF) (f : NewF)
    (hf : f ∈ (reconcileChildren decl old).1) :
    staleAlternateUpdate f = false := by
  rcases mem_reconcileChildren_chain decl old hf with ⟨c, rfl⟩
    | ⟨c, o, _, _, rfl⟩
  · rfl
  · rfl

/-- Witness for the C10 theorem at a concrete same-type reconciliation
producing an UPDATE fiber. -/
theorem reconcileChildren_no_staleAlternateUpdate_witness :
    updateFiber (Elem.mk (.tag "p") [] [])
        (OldF.mk (.tag "p") (some 7) [] [] ETag.UPDATE)
      ∈ (reconcileChildren [Elem.mk (.tag "p") [] []]
          [OldF.mk (.tag "p") (some 7) [] [] ETag.UPDATE]).1
    ∧ staleAlternateUpdate
        (updateFiber (Elem.mk (.tag "p") [] [])
          (OldF.mk (.tag "p") (some 7) [] [] ETag.UPDATE)) = false := by
  have hm : updateFiber (Elem.mk (.tag "p") [] [])
      (OldF.mk (.tag "p") (some 7) [] [] ETag.UPDATE)
      ∈ (reconcileChildren [Elem.mk (.tag "p") [] []]
        [OldF.mk (.tag "p") (some 7) [] [] ETag.UPDATE]).1 := by
    simp [reconcileChildren, Elem.type]
  exact ⟨hm, reconcileChildren_no_staleAlternateUpdate _ _ _ hm⟩

/-- C9: composite fibers never own a host node and host nodes are
materialized at most once: `createDomElement` returns no node for a
composite type; a visit to a fiber that already has a node leaves the
node (and the fresh-handle counter) unchanged; a visit to a composite
fiber never touches the node; a first visit to a host fiber without a
node creates exactly one; reconciliation preserves the
composite-owns-no-node invariant across generations; and every UPDATE
fiber reuses its alternate's host node. -/
theorem hostNode_ownership (decl : List Elem) (old : List OldF)
    (hold : ∀ o ∈ old, o.type.isComposite = true →
      o.currentDomElement = none) :
    (∀ id fresh, createDomElement (.comp id) fresh = none)
    ∧ (∀ ty d fresh, visitNode ty (some d) fresh = (some d, fresh))
    ∧ (∀ id node fresh, visitNode (.comp id) node fresh = (node, fresh))
    ∧ (∀ t fresh, visitNode (.tag t) none fresh = (some fresh, fresh + 1))
    ∧ (∀ f ∈ (reconcileChildren decl old).1, f.type.isComposite = true →
        f.currentDomElement = none)
    ∧ (∀ f ∈ (reconcileChildren decl old).1, f.effectTag = .UPDATE →
        ∃ o, f.alternate = some o
          ∧ f.currentDomElement = o.currentDomElement) := by
  refine ⟨fun id fresh => rfl, ?_, fun id node fresh => rfl,
    fun t fresh => rfl, ?_, ?_⟩
  · intro ty d fresh
    cases ty <;> rfl
  · intro f hf hc
    rcases mem_reconcileChildren_chain decl old hf with ⟨c, rfl⟩
      | ⟨c, o, ho, ht, rfl⟩
    · rfl
    · have hoc : o.type.isComposite = true := by
        simpa [updateFiber] using hc
      simpa [updateFiber] using hold o ho hoc
  · intro f hf he
    rcases mem_reconcileChildren_chain decl old hf with ⟨c, rfl⟩
      | ⟨c, o, ho, ht, rfl⟩
    · exact absurd he (by simp [placementFiber])
    · exact ⟨o, rfl, rfl⟩

/-- Witness for the C9 theorem: a composite old fiber with no host
node, re-rendered at the same type, yields an UPDATE fiber that still
owns no host node. -/
theorem hostNode_ownership_witness :
    (∀ o ∈ [OldF.mk (.comp 5) none [] [] ETag.UPDATE],
        o.type.isComposite = true → o.currentDomElement = none)
    ∧ (updateFiber (Elem.mk (.comp 5) [] [])
        (OldF.mk (.comp 5) none [] [] ETag.UPDATE)).currentDomElement
      = none := by
  have hyp : ∀ o ∈ [OldF.mk (.comp 5) none [] [] ETag.UPDATE],
      o.type.isComposite = true → o.currentDomElement = none := by
    intro o ho _
    simp only [List.mem_singleton] at ho
    subst ho
    rfl
  have hm : updateFiber (Elem.mk (.comp 5) [] [])
      (OldF.mk (.comp 5) none [] [] ETag.UPDATE)
      ∈ (reconcileChildren [Elem.mk (.comp 5) [] []]
        [OldF.mk (.comp 5) none [] [] ETag.UPDATE]).1 := by
    simp [reconcileChildren, Elem.type]
  exact ⟨hyp,
    (hostNode_ownership [Elem.mk (.comp 5) [] []]
      [OldF.mk (.comp 5) none [] [] ETag.UPDATE] hyp).2.2.2.2.1
      _ hm rfl⟩

theorem findAncestorWithSibling_eq_find (arena : List AFiber) :
    ∀ (fuel : Nat) (o : Option Nat),
      findAncestorWithSibling arena fuel o
        = (ancestorChain arena fuel o).find? (hasSiblingAt arena) := by
  intro fuel
  induction fuel with
  | zero =>
    intro o
    cases o <;> rfl
  | succ n ih =>
    intro o
    cases o with
    | none => rfl
    | some j =>
      cases hj : arena[j]? with
      | none =>
        simp [findAncestorWithSibling, ancestorChain, hj, List.find?,
          hasSiblingAt]
      | some f =>
        by_cases hs : f.sibling.isSome
        · simp [findAncestorWithSibling, ancestorChain, hj, hs,
            List.find?, hasSiblingAt]
        · simp [findAncestorWithSibling, ancestorChain, hj, hs,
            List.find?, hasSiblingAt, ih]

theorem ancestorChain_stable (arena : List AFiber)
    (hp : ∀ (j : Nat) (f : AFiber), arena[j]? = some f →
      ∀ (p : Nat), f.parent = some p → p < j) :
    ∀ (fuel1 fuel2 j : Nat), j < fuel1 → j < fuel2 →
      ancestorChain arena fuel1 (some j)
        = ancestorChain arena fuel2 (some j) := by
  intro fuel1
  induction fuel1 with
  | zero =>
    intro fuel2 j h1 h2
    omega
  | succ n ih =>
    intro fuel2 j h1 h2
    cases fuel2 with
    | zero => omega
    | succ m =>
      cases hj : arena[j]? with
      | none => simp [ancestorChain, hj]
      | some f =>
        cases hpar : f.parent with
        | none =>
          cases n <;> cases m <;> simp [ancestorChain, hj, hpar]
        | some p =>
          have hpj : p < j := hp j f hj p hpar
          have hrec := ih m p (by omega) (by omega)
          simp [ancestorChain, hj, hpar, hrec]

/-- C8: after processing the fiber at index `i`, the next unit of work
is the fiber's child if present; else its sibling if present; else the
sibling of the first ancestor on the parent chain that has a sibling;
and none when no ancestor has one (render phase complete).  In an
arena whose parent pointers decrease (parents are created before their
children), the fuel `i + 1` used by the walk covers the whole ancestor
chain. -/
theorem findNextUnitOfWork_spec (arena : List AFiber) (i : Nat)
    (cur : AFiber) (hc : arena[i]? = some cur)
    (hp : ∀ (j : Nat) (f : AFiber), arena[j]? = some f →
      ∀ (p : Nat), f.parent = some p → p < j) :
    findNextUnitOfWork arena i =
      (cur.child.or (cur.sibling.or
        (((ancestorChain arena (i + 1) cur.parent).find?
            (hasSiblingAt arena)).bind
          fun j => (arena[j]?).bind AFiber.sibling)))
    ∧ (∀ fuel, i < fuel →
        ancestorChain arena fuel cur.parent
          = ancestorChain arena (i + 1) cur.parent) := by
  constructor
  · obtain ⟨par, ch, sib⟩ := cur
    cases ch with
    | some c => simp [findNextUnitOfWork, hc]
    | none =>
      cases sib with
      | some s => simp [findNextUnitOfWork, hc]
      | none =>
        simp only [findNextUnitOfWork, hc]
        rw [findAncestorWithSibling_eq_find]
        cases hfind : (ancestorChain arena (i + 1)
            (AFiber.parent ⟨par, none, none⟩)).find?
            (hasSiblingAt arena) <;>
          simp [hfind]
  · intro fuel hfuel
    cases hpar : cur.parent with
    | none => cases fuel <;> simp [ancestorChain]
    | some p =>
      have hpi : p < i := hp i cur hc p hpar
      exact ancestorChain_stable arena hp fuel (i + 1) p (by omega)
        (by omega)

/-- Witness for the C8 theorem on a concrete four-fiber arena: fiber 2
(a leaf whose parent is fiber 1) hands control to fiber 3, the sibling
of its parent. -/
theorem findNextUnitOfWork_spec_witness :
    (([⟨none, some 1, none⟩, ⟨some 0, some 2, some 3⟩,
       ⟨some 1, none, none⟩, ⟨some 0, none, none⟩] :
        List AFiber)[2]? = some ⟨some 1, none, none⟩)
    ∧ findNextUnitOfWork
        [⟨none, some 1, none⟩, ⟨some 0, some 2, some 3⟩,
         ⟨some 1, none, none⟩, ⟨some 0, none, none⟩] 2 =
      ((AFiber.mk (some 1) none none).child.or
        ((AFiber.mk (some 1) none none).sibling.or
          (((ancestorChain
              [⟨none, some 1, none⟩, ⟨some 0, some 2, some 3⟩,
               ⟨some 1, none, none⟩, ⟨some 0, none, none⟩] 3
              (AFiber.mk (some 1) none none).parent).find?
            (hasSiblingAt
              [⟨none, some 1, none⟩, ⟨some 0, some 2, some 3⟩,
               ⟨some 1, none, none⟩, ⟨some 0, none, none⟩])).bind
            fun j =>
              (([⟨none, some 1, none⟩, ⟨some 0, some 2, some 3⟩,
                 ⟨some 1, none, none⟩, ⟨some 0, none, none⟩] :
                  List AFiber)[j]?).bind AFiber.sibling)))
    ∧ findNextUnitOfWork
        [⟨none, some 1, none⟩, ⟨some 0, some 2, some 3⟩,
         ⟨some 1, none, none⟩, ⟨some 0, none, none⟩] 2 = some 3 := by
  have hp : ∀ (j : Nat) (f : AFiber),
      ([⟨none, some 1, none⟩, ⟨some 0, some 2, some 3⟩,
        ⟨some 1, none, none⟩, ⟨some 0, none, none⟩] :
          List AFiber)[j]? = some f →
      ∀ (p : Nat), f.parent = some p → p < j := by
    intro j f hj p hpp
    have hj4 : j < 4 := by
      by_contra hge
      push_neg at hge
      rw [List.getElem?_eq_none (by simpa using hge)] at hj
      exact Option.noConfusion hj
    interval_cases j <;>
      (simp only [List.getElem?_cons_zero, List.getElem?_cons_succ,
        Option.some.injEq] at hj; subst hj; simp at hpp) <;> omega
  refine ⟨rfl, ?_, by decide⟩
  exact (findNextUnitOfWork_spec
    [⟨none, some 1, none⟩, ⟨some 0, some 2, some 3⟩,
     ⟨some 1, none, none⟩, ⟨some 0, none, none⟩] 2
    ⟨some 1, none, none⟩ rfl hp).1
